import Mathlib

/-!
Verification development for the `refmt` case-conversion engine.

Strings are modeled as `List Char` (Rust `String` / `&str` as a sequence of
characters; all inputs of interest are ASCII identifiers, and the Rust
`char::to_lowercase` / `to_uppercase` / `is_uppercase` functions coincide with
Lean's ASCII `Char.toLower` / `Char.toUpper` / `Char.isUpper` on that range).

The embedded source files are:
  - `src/codeconvert-core/src/case.rs` (identical module used by `refmt-core`):
    `CaseFormat`, `CaseFormat::pattern`, `CaseFormat::split_words`,
    `CaseFormat::join_words`;
  - `src/refmt-core/src/converter.rs`: `CaseConverter::new`,
    `CaseConverter::convert`, `CaseConverter::process_file`,
    `CaseConverter::process_directory`;
  - `src/refmt-cli/src/main.rs`: the clap `requires` constraints on the
    replace-prefix-to / replace-suffix-to options.
-/

namespace Refmt

/-! ### ASCII character facts used throughout -/

/-- Characters that the regex class `[a-z0-9]` accepts. -/
def isLowerDigit (c : Char) : Bool := c.isLower || c.isDigit

/-- Characters that the regex class `[A-Z0-9]` accepts. -/
def isUpperDigit (c : Char) : Bool := c.isUpper || c.isDigit

theorem toLower_of_isLower (c : Char) (h : c.isLower = true) : c.toLower = c := by
  simp [Char.isLower, UInt32.le_def, BitVec.le_def] at h
  simp [Char.toLower, Char.toNat, UInt32.toNat]
  omega

theorem toLower_of_isDigit (c : Char) (h : c.isDigit = true) : c.toLower = c := by
  simp [Char.isDigit, UInt32.le_def, BitVec.le_def] at h
  simp [Char.toLower, Char.toNat, UInt32.toNat]
  omega

theorem toUpper_of_isDigit (c : Char) (h : c.isDigit = true) : c.toUpper = c := by
  simp [Char.isDigit, UInt32.le_def, BitVec.le_def] at h
  simp [Char.toUpper, Char.toNat, UInt32.toNat]
  omega

theorem toUpper_toLower (c : Char) (h : c.isUpper = true) : (c.toLower).toUpper = c := by
  simp [Char.isUpper, UInt32.le_def, BitVec.le_def] at h
  simp [Char.toLower, Char.toNat, UInt32.toNat]
  rw [if_pos (by omega)]
  have hv : ((c.val.toBitVec.toNat + 32)).isValidChar := by
    constructor
    omega
  rw [Char.ofNat, dif_pos hv]
  simp [Char.toUpper, Char.ofNatAux, Char.toNat, UInt32.toNat]
  rw [if_pos h]
  exact Char.ofNat_toNat c

theorem toLower_toUpper (c : Char) (h : c.isLower = true) : (c.toUpper).toLower = c := by
  simp [Char.isLower, UInt32.le_def, BitVec.le_def] at h
  simp [Char.toUpper, Char.toNat, UInt32.toNat]
  rw [if_pos (by omega)]
  have hv : ((c.val.toBitVec.toNat - 32)).isValidChar := by
    constructor
    omega
  rw [Char.ofNat, dif_pos hv]
  simp [Char.toLower, Char.ofNatAux, Char.toNat, UInt32.toNat]
  rw [if_pos (by omega)]
  have heq : c.val.toBitVec.toNat - 32 + 32 = c.val.toBitVec.toNat := by omega
  rw [heq]
  exact Char.ofNat_toNat c

theorem isUpper_toUpper (c : Char) (h : c.isLower = true) : (c.toUpper).isUpper = true := by
  simp [Char.isLower, UInt32.le_def, BitVec.le_def] at h
  simp [Char.toUpper, Char.toNat, UInt32.toNat]
  rw [if_pos (by omega)]
  have hv : ((c.val.toBitVec.toNat - 32)).isValidChar := by
    constructor
    omega
  rw [Char.ofNat, dif_pos hv]
  simp [Char.isUpper, Char.ofNatAux, UInt32.le_def, BitVec.le_def]
  omega

theorem not_isUpper_of_isLower (c : Char) (h : c.isLower = true) : c.isUpper = false := by
  simp [Char.isLower, UInt32.le_def, BitVec.le_def] at h
  simp [Char.isUpper, UInt32.le_def, BitVec.le_def]
  omega

theorem not_isUpper_of_isDigit (c : Char) (h : c.isDigit = true) : c.isUpper = false := by
  simp [Char.isDigit, UInt32.le_def, BitVec.le_def] at h
  simp [Char.isUpper, UInt32.le_def, BitVec.le_def]
  omega

theorem not_isUpper_of_isLowerDigit (c : Char) (h : isLowerDigit c = true) :
    c.isUpper = false := by
  rcases Bool.or_eq_true_iff.mp h with h' | h'
  · exact not_isUpper_of_isLower c h'
  · exact not_isUpper_of_isDigit c h'

theorem toLower_of_isLowerDigit (c : Char) (h : isLowerDigit c = true) : c.toLower = c := by
  rcases Bool.or_eq_true_iff.mp h with h' | h'
  · exact toLower_of_isLower c h'
  · exact toLower_of_isDigit c h'

theorem toLower_toUpper_of_isLowerDigit (c : Char) (h : isLowerDigit c = true) :
    (c.toUpper).toLower = c := by
  rcases Bool.or_eq_true_iff.mp h with h' | h'
  · exact toLower_toUpper c h'
  · rw [toUpper_of_isDigit c h', toLower_of_isDigit c h']

theorem ne_of_isLowerDigit {c : Char} (s : Char) (hs : s.isAlphanum = false)
    (h : isLowerDigit c = true) : c ≠ s := by
  intro he
  subst he
  rcases Bool.or_eq_true_iff.mp h with h' | h' <;>
    simp [Char.isAlphanum, Char.isAlpha, h'] at hs

theorem toUpper_ne_of_isLowerDigit {c : Char} (s : Char) (hs : s.isAlphanum = false)
    (h : isLowerDigit c = true) : c.toUpper ≠ s := by
  rcases Bool.or_eq_true_iff.mp h with h' | h'
  · intro he
    have hu := isUpper_toUpper c h'
    rw [he] at hu
    simp [Char.isAlphanum, Char.isAlpha, hu] at hs
  · rw [toUpper_of_isDigit c h']
    exact ne_of_isLowerDigit s hs h

/-! ### CaseFormat: the six case dialects (`src/codeconvert-core/src/case.rs`) -/

/-- Embedding of the Rust enum `CaseFormat` from `case.rs`. -/
inductive CaseFormat
  | CamelCase
  | PascalCase
  | SnakeCase
  | ScreamingSnakeCase
  | KebabCase
  | ScreamingKebabCase
deriving DecidableEq

/-- Helper for the camel/pascal arm of `split_words`: the manual left-to-right
scan over characters with the accumulated `current_word`.  Mirrors the Rust
loop: an uppercase character with a non-empty current word pushes the
lowercased word and starts a new one; every other character is appended. -/
def splitCamelAux (cur : List Char) : List Char → List (List Char)
  | [] => if cur.isEmpty then [] else [cur.map Char.toLower]
  | c :: rest =>
    if c.isUpper && !cur.isEmpty then
      cur.map Char.toLower :: splitCamelAux [c] rest
    else
      splitCamelAux (cur ++ [c]) rest

/-- Helper for the snake/kebab arms of `split_words`: Rust `str::split(sep)`
(which keeps empty segments; they are filtered afterwards, as in the source). -/
def splitSepAux (sep : Char) (cur : List Char) : List Char → List (List Char)
  | [] => [cur]
  | c :: rest =>
    if c = sep then cur :: splitSepAux sep [] rest
    else splitSepAux sep (cur ++ [c]) rest

/-- Rust `text.split(sep)` as a list of segments. -/
def splitSepRaw (sep : Char) (cs : List Char) : List (List Char) :=
  splitSepAux sep [] cs

/-- Embedding of `CaseFormat::split_words` from `case.rs`. -/
def CaseFormat.splitWords (fmt : CaseFormat) (text : List Char) : List (List Char) :=
  match fmt with
  | .CamelCase | .PascalCase => splitCamelAux [] text
  | .SnakeCase | .ScreamingSnakeCase =>
      ((splitSepRaw '_' text).filter (fun s => !s.isEmpty)).map (List.map Char.toLower)
  | .KebabCase | .ScreamingKebabCase =>
      ((splitSepRaw '-' text).filter (fun s => !s.isEmpty)).map (List.map Char.toLower)

/-- The per-word capitalization used in `join_words`: first character
uppercased, rest unchanged (Rust `chars().next()` + `to_uppercase().chain`). -/
def capitalizeWord (w : List Char) : List Char :=
  match w with
  | [] => []
  | c :: rest => c.toUpper :: rest

/-- Embedding of `CaseFormat::join_words` from `case.rs`.  The empty word list
returns the empty string before the prefix/suffix wrapping, exactly as in the
source (`if words.is_empty() { return String::new(); }`). -/
def CaseFormat.joinWords (fmt : CaseFormat) (words : List (List Char))
    (pre suf : List Char) : List Char :=
  match words with
  | [] => []
  | w0 :: rest =>
    let result : List Char :=
      match fmt with
      | .CamelCase => w0.map Char.toLower ++ (rest.map capitalizeWord).flatten
      | .PascalCase => ((w0 :: rest).map capitalizeWord).flatten
      | .SnakeCase => List.intercalate ['_'] ((w0 :: rest).map (List.map Char.toLower))
      | .ScreamingSnakeCase =>
          List.intercalate ['_'] ((w0 :: rest).map (List.map Char.toUpper))
      | .KebabCase => List.intercalate ['-'] ((w0 :: rest).map (List.map Char.toLower))
      | .ScreamingKebabCase =>
          List.intercalate ['-'] ((w0 :: rest).map (List.map Char.toUpper))
    pre ++ result ++ suf

/-! ### Token recognition (`CaseFormat::pattern` in `case.rs`)

Each Rust pattern has the form `\b body \b`.  `matchesToken` decides whether a
whole string is in the language of `body`:

  - camel:           `[a-z]+(?:[A-Z][a-z0-9]*)+`
  - pascal:          `[A-Z][a-z0-9]+(?:[A-Z][a-z0-9]*)+`
  - snake:           `[a-z]+(?:_[a-z0-9]+)+`
  - screaming snake: `[A-Z]+(?:_[A-Z0-9]+)+`
  - kebab:           `[a-z]+(?:-[a-z0-9]+)+`
  - screaming kebab: `[A-Z]+(?:-[A-Z0-9]+)+`

For the camel/pascal bodies note that `(?:[A-Z][a-z0-9]*)+` denotes exactly the
nonempty strings over `[A-Z] ∪ [a-z0-9]` that begin with an uppercase letter,
which is how the checkers below decide it. -/

/-- Decides `(?:[A-Z][a-z0-9]*)+`: nonempty, uppercase first, every character
uppercase or lower/digit. -/
def humpsCheck (cs : List Char) : Bool :=
  match cs with
  | [] => false
  | c :: rest => c.isUpper && rest.all (fun x => x.isUpper || isLowerDigit x)

/-- Decides the camelCase token body `[a-z]+(?:[A-Z][a-z0-9]*)+`. -/
def camelToken (cs : List Char) : Bool :=
  (!(cs.takeWhile Char.isLower).isEmpty) && humpsCheck (cs.dropWhile Char.isLower)

/-- Decides the PascalCase token body `[A-Z][a-z0-9]+(?:[A-Z][a-z0-9]*)+`. -/
def pascalToken (cs : List Char) : Bool :=
  match cs with
  | c :: d :: rest =>
      c.isUpper && isLowerDigit d && humpsCheck ((d :: rest).dropWhile isLowerDigit)
  | _ => false

/-- Decides the snake/kebab style bodies `first (sep rest)+`: splitting on the
separator yields a nonempty first segment over `firstOk`, at least one further
segment, and every further segment nonempty over `restOk` (no empty segments,
hence no leading/trailing/doubled separators). -/
def sepToken (sep : Char) (firstOk restOk : Char → Bool) (cs : List Char) : Bool :=
  match splitSepRaw sep cs with
  | [] => false
  | s0 :: rest =>
      (!s0.isEmpty) && s0.all firstOk && (!rest.isEmpty) &&
        rest.all (fun s => (!s.isEmpty) && s.all restOk)

/-- Whole-token matcher for `CaseFormat::pattern` (the `\b … \b` body). -/
def CaseFormat.matchesToken (fmt : CaseFormat) (cs : List Char) : Bool :=
  match fmt with
  | .CamelCase => camelToken cs
  | .PascalCase => pascalToken cs
  | .SnakeCase => sepToken '_' Char.isLower isLowerDigit cs
  | .ScreamingSnakeCase => sepToken '_' Char.isUpper isUpperDigit cs
  | .KebabCase => sepToken '-' Char.isLower isLowerDigit cs
  | .ScreamingKebabCase => sepToken '-' Char.isUpper isUpperDigit cs

/-! ### CaseConverter (`src/refmt-core/src/converter.rs`)

The `CaseConverter` struct is embedded as `Job`.  Field-name mapping to the
Rust struct (some Rust names are shortened): `from_format` → `fromFmt`,
`to_format` → `toFmt`, `file_extensions` → `fileExts`, `prefix` → `outPre`,
`suffix` → `outSuf`, `strip_prefix` → `stripPre`, `strip_suffix` → `stripSuf`,
`replace_prefix_from`/`to` → `repPreFrom`/`repPreTo`,
`replace_suffix_from`/`to` → `repSufFrom`/`repSufTo`,
`glob_pattern` → `globPat`, `word_filter` → `wordFilter`.

Compiled `Regex` and `glob::Pattern` values are modeled semantically as
`List Char → Bool` predicates (the compiled matcher is only ever used through
`is_match` / `matches` / `matches_path`).  The `source_pattern` field is
determined by `fromFmt` (it is always `Regex::new(from_format.pattern())`), so
it is not stored separately. -/

structure Job where
  fromFmt : CaseFormat
  toFmt : CaseFormat
  fileExts : List (List Char)
  recursive : Bool
  dryRun : Bool
  outPre : List Char
  outSuf : List Char
  stripPre : Option (List Char)
  stripSuf : Option (List Char)
  repPreFrom : Option (List Char)
  repPreTo : Option (List Char)
  repSufFrom : Option (List Char)
  repSufTo : Option (List Char)
  globPat : Option (List Char → Bool)
  wordFilter : Option (List Char → Bool)

/-- Steps 1-4 of `CaseConverter::convert`: strip prefix, strip suffix,
replace prefix, replace suffix, each applied only when configured and when the
current string starts/ends with the configured literal (Rust `starts_with` /
`ends_with` and slicing). -/
def applyAffixSteps (job : Job) (name : List Char) : List Char :=
  let p1 :=
    match job.stripPre with
    | some p => if p.isPrefixOf name then name.drop p.length else name
    | none => name
  let p2 :=
    match job.stripSuf with
    | some s => if s.isSuffixOf p1 then p1.take (p1.length - s.length) else p1
    | none => p1
  let p3 :=
    match job.repPreFrom, job.repPreTo with
    | some f, some t => if f.isPrefixOf p2 then t ++ p2.drop f.length else p2
    | _, _ => p2
  let p4 :=
    match job.repSufFrom, job.repSufTo with
    | some f, some t =>
        if f.isSuffixOf p3 then p3.take (p3.length - f.length) ++ t else p3
    | _, _ => p3
  p4

/-- Embedding of `CaseConverter::convert`: steps 1-4 (`applyAffixSteps`), then
the word-filter gate (step 5: on failure the ORIGINAL `name` is returned),
then split (step 6) and join with the output prefix/suffix (step 7). -/
def Job.convert (job : Job) (name : List Char) : List Char :=
  let processed := applyAffixSteps job name
  match job.wordFilter with
  | some filt =>
      if filt processed then
        job.toFmt.joinWords (job.fromFmt.splitWords processed) job.outPre job.outSuf
      else
        name
  | none =>
      job.toFmt.joinWords (job.fromFmt.splitWords processed) job.outPre job.outSuf

/-! ### The substitution pass (`Regex::replace_all` over `source_pattern`)

Model of the `regex` crate's leftmost search for the six token patterns.  A
word boundary `\b` holds between a word character (`[A-Za-z0-9_]`) and a
non-word character or text edge.  At each position that follows a non-word
character (or the text start) the scanner takes the longest prefix that is in
the pattern body's language and is followed by a word boundary, replaces it via
`Job.convert`, and resumes after it; all other characters are copied. -/

def isWordChar (c : Char) : Bool := c.isAlphanum || c = '_'

/-- Word boundary to the right of a match: end of text or a non-word char. -/
def boundaryAfter : List Char → Bool
  | [] => true
  | c :: _ => !isWordChar c

/-- Length of the longest match of `fmt`'s pattern starting at the head of
`cs` (with its trailing word boundary), if any. -/
def bestLen (fmt : CaseFormat) (cs : List Char) : Option Nat :=
  (List.range' 1 cs.length).reverse.find? fun n =>
    fmt.matchesToken (cs.take n) && boundaryAfter (cs.drop n)

/-- The left-to-right substitution scan; `prevWord` records whether the
previous character was a word character (no `\b` at such a position). -/
def scanAux (job : Job) (prevWord : Bool) (cs : List Char) : List Char :=
  match cs with
  | [] => []
  | c :: rest =>
    if prevWord then c :: scanAux job (isWordChar c) rest
    else
      match bestLen job.fromFmt (c :: rest) with
      | some n =>
          job.convert ((c :: rest).take n) ++ scanAux job true (rest.drop (n - 1))
      | none => c :: scanAux job (isWordChar c) rest
termination_by cs.length
decreasing_by
  · simp
  · simp [List.length_drop]
    omega
  · simp

/-- Model of `self.source_pattern.replace_all(&content, |caps| self.convert(&caps[0]))`. -/
def substitute (job : Job) (content : List Char) : List Char :=
  scanAux job false content

/-! ### File processing (`process_file` / `process_directory`)

The filesystem boundary is modeled per candidate file: `ext` is
`Path::extension()` (`none` for extensionless paths, `some e` for `.e` —
without the leading dot, exactly as the Rust API returns it), `fname` and
`relPath` feed the glob check, `readRes` is the outcome `fs::read_to_string`
would produce, and `writeRes` the outcome `fs::write` would produce if
attempted.  `FsEvent` records the filesystem side effects actually performed,
in order. -/

structure IOErr where
  code : Nat
deriving DecidableEq

structure FileModel where
  ext : Option (List Char)
  fname : List Char
  relPath : List Char
  readRes : Except IOErr (List Char)
  writeRes : Except IOErr Unit

inductive FsEvent
  | fileRead
  | fileWrite (content : List Char)
deriving DecidableEq

/-- The per-file result reported to the user: which (if any) of the three
`println!` messages of `process_file` is emitted, or that the file was skipped
by one of the early `return Ok(())` paths. -/
inductive Outcome
  | skippedNoExt
  | skippedExt
  | skippedGlob
  | wouldConvert
  | converted
  | unchanged
deriving DecidableEq

/-- Embedding of `CaseConverter::matches_glob`: with no glob pattern every
file matches; otherwise the pattern is tried against the file name and against
the path relative to the base. -/
def matchesGlob (job : Job) (f : FileModel) : Bool :=
  match job.globPat with
  | some p => p f.fname || p f.relPath
  | none => true

/-- Embedding of `CaseConverter::process_file`: extension check (a file with
no extension returns `Ok` immediately; an extension is compared as `".{ext}"`
against the configured list), glob check, read, one `replace_all` pass, then
the changed/unchanged dry-run-aware reporting and conditional write.  Returns
the Rust `Result` (with the printed outcome) and the filesystem events. -/
def processFile (job : Job) (f : FileModel) :
    Except IOErr Outcome × List FsEvent :=
  match f.ext with
  | none => (Except.ok Outcome.skippedNoExt, [])
  | some e =>
    if ('.' :: e) ∉ job.fileExts then (Except.ok Outcome.skippedExt, [])
    else if !matchesGlob job f then (Except.ok Outcome.skippedGlob, [])
    else
      match f.readRes with
      | Except.error er => (Except.error er, [FsEvent.fileRead])
      | Except.ok content =>
        let modified := substitute job content
        if content ≠ modified then
          if job.dryRun then (Except.ok Outcome.wouldConvert, [FsEvent.fileRead])
          else
            match f.writeRes with
            | Except.error er =>
                (Except.error er, [FsEvent.fileRead, FsEvent.fileWrite modified])
            | Except.ok _ =>
                (Except.ok Outcome.converted, [FsEvent.fileRead, FsEvent.fileWrite modified])
        else (Except.ok Outcome.unchanged, [FsEvent.fileRead])

/-- Embedding of the per-file loop in `CaseConverter::process_directory`
(both the recursive and the non-recursive branch have the same body): each
candidate file is processed with `process_file`; an `Err` result is reported
via `eprintln!` and the loop continues with the next file either way.  The
returned list holds every file's own result and events, in traversal order. -/
def processDirLoop (job : Job) : List FileModel → List (Except IOErr Outcome × List FsEvent)
  | [] => []
  | f :: rest => processFile job f :: processDirLoop job rest

/-! ### Construction (`CaseConverter::new`) and the CLI argument constraints -/

/-- The default extension list of `CaseConverter::new`. -/
def defaultExts : List (List Char) :=
  [".c", ".h", ".py", ".md", ".js", ".ts", ".java", ".cpp", ".hpp"].map String.data

/-- Embedding of `CaseConverter::new`.  The `word_filter` and `glob_pattern`
arguments are modeled post-compilation (as semantic predicates): compiling a
malformed pattern string — the only failure paths of the Rust function, via
`Regex::new(...)?` / `glob::Pattern::new(...)?` — is outside the model, and
`Regex::new(from_format.pattern())` always succeeds since the six patterns are
fixed valid literals.  `new` stores the options; it performs no validation of
the strip/replace options. -/
def CaseConverterNew (fromFmt toFmt : CaseFormat) (fileExts : Option (List (List Char)))
    (recursive dryRun : Bool) (outPre outSuf : List Char)
    (stripPre stripSuf repPreFrom repPreTo repSufFrom repSufTo : Option (List Char))
    (globPat wordFilter : Option (List Char → Bool)) : Except (List Char) Job :=
  Except.ok
    (Job.mk fromFmt toFmt (fileExts.getD defaultExts) recursive dryRun outPre outSuf
      stripPre stripSuf repPreFrom repPreTo repSufFrom repSufTo globPat wordFilter)

/-- Embedding of the clap `requires` constraints on `Commands::Convert` in
`src/refmt-cli/src/main.rs`: `--replace-prefix-to` carries
`requires = "replace_prefix_from"` and `--replace-suffix-to` carries
`requires = "replace_suffix_from"`, so argument parsing accepts the options
only when each given "to" comes with its "from". -/
def convertArgsAccepted (repPreFrom repPreTo repSufFrom repSufTo : Option (List Char)) : Bool :=
  (repPreTo.isNone || repPreFrom.isSome) && (repSufTo.isNone || repSufFrom.isSome)

/-! ### Substring search for a pattern (`Regex::is_match` semantics)

`findsMatch fmt text` states that `fmt`'s pattern `\b body \b` matches
somewhere inside `text`: some decomposition `pre ++ mid ++ suf` where `mid` is
in the body's language and the characters adjacent to `mid` (when they exist)
are non-word characters, giving the two `\b` boundaries. -/
def findsMatch (fmt : CaseFormat) (text : List Char) : Prop :=
  ∃ pre mid suf, text = pre ++ mid ++ suf ∧ fmt.matchesToken mid = true ∧
    (pre.getLast?.elim True fun c => isWordChar c = false) ∧
    (suf.head?.elim True fun c => isWordChar c = false)

/-- A single capitalized word: one uppercase letter followed only by lowercase
letters or digits (hence containing no second uppercase letter). -/
def singleCapWord (cs : List Char) : Bool :=
  match cs with
  | [] => false
  | c :: rest => c.isUpper && rest.all isLowerDigit

/-! ### Claim theorems -/

/-- C5: for every one of the six case styles and all prefix/suffix strings,
`join_words` on the empty word list returns the empty string (the prefix and
suffix are not applied), and (being a total Lean function) does not crash. -/
theorem joinWords_empty (fmt : CaseFormat) (pre suf : List Char) :
    fmt.joinWords [] pre suf = [] := rfl

/-- C1: the word-filter gate.  When a word filter is configured and rejects
the identifier as processed by the strip/replace steps 1-4, `convert` returns
the original raw token unchanged, discarding the results of steps 1-4. -/
theorem wordFilterGate (job : Job) (filt : List Char → Bool) (name : List Char)
    (hf : job.wordFilter = some filt)
    (hno : filt (applyAffixSteps job name) = false) :
    job.convert name = name := by
  unfold Job.convert
  rw [hf]
  simp [hno]

/-- Witness job for C1: a strip-prefix that would alter the token, and a word
filter that rejects everything. -/
def gateJob : Job :=
  Job.mk CaseFormat.CamelCase CaseFormat.SnakeCase defaultExts false false [] []
    (some ['m', 'y']) none none none none none none (some (fun _ => false))

/-- C1 witness: on `"myVar"` the strip step would produce `"Var"`, yet the
rejected filter makes `convert` return the raw token byte-for-byte. -/
theorem wordFilterGate_witness :
    gateJob.convert ['m', 'y', 'V', 'a', 'r'] = ['m', 'y', 'V', 'a', 'r'] :=
  wordFilterGate gateJob (fun _ => false) ['m', 'y', 'V', 'a', 'r'] rfl rfl

/-- C10: a file whose path has no extension is skipped immediately: success,
and no filesystem access at all, whatever the configuration. -/
theorem noExtensionSkipped (job : Job) (f : FileModel) (h : f.ext = none) :
    processFile job f = (Except.ok Outcome.skippedNoExt, []) := by
  unfold processFile
  rw [h]

/-- Sample job shared by several witnesses: camelCase → snake_case, default
extensions, no affix options, not dry-run. -/
def sampleJob : Job :=
  Job.mk CaseFormat.CamelCase CaseFormat.SnakeCase defaultExts false false [] []
    none none none none none none none none

/-- Sample extensionless file. -/
def noExtFile : FileModel :=
  FileModel.mk none ['R', 'E', 'A', 'D', 'M', 'E'] ['R', 'E', 'A', 'D', 'M', 'E']
    (Except.ok ['m', 'y', 'V', 'a', 'r']) (Except.ok ())

/-- C10 witness. -/
theorem noExtensionSkipped_witness :
    processFile sampleJob noExtFile = (Except.ok Outcome.skippedNoExt, []) :=
  noExtensionSkipped sampleJob noExtFile rfl

/-- C7: with dry-run enabled, `process_file` never performs a write, whatever
the file's content, filters, or error state. -/
theorem dryRunNeverWrites (job : Job) (f : FileModel) (h : job.dryRun = true) :
    ∀ c, FsEvent.fileWrite c ∉ (processFile job f).2 := by
  intro c
  unfold processFile
  repeat' split
  all_goals simp_all
  all_goals (split <;> simp)

/-- Dry-run variant of the sample job. -/
def dryJob : Job :=
  Job.mk CaseFormat.CamelCase CaseFormat.SnakeCase defaultExts false true [] []
    none none none none none none none none

/-- Sample candidate file whose content the conversion would change. -/
def mdFile : FileModel :=
  FileModel.mk (some ['m', 'd']) ['a', '.', 'm', 'd'] ['a', '.', 'm', 'd']
    (Except.ok ['m', 'y', 'V', 'a', 'r']) (Except.ok ())

/-- C7 witness: a dry run over a file the conversion would change performs no
write. -/
theorem dryRunNeverWrites_witness :
    FsEvent.fileWrite ['x'] ∉ (processFile dryJob mdFile).2 :=
  dryRunNeverWrites dryJob mdFile rfl ['x']

/-- C4 counterexample: `CaseConverter::new` does NOT reject a
`replace_prefix_to` given without `replace_prefix_from`; construction
succeeds on such input. -/
theorem newAcceptsUnpairedReplaceTo :
    (CaseConverterNew CaseFormat.CamelCase CaseFormat.SnakeCase none false false [] []
      none none none (some ['A', 'b', 's']) none none none none).isOk = true := rfl

/-- C4 amended: the unpaired "to" option is rejected by the CLI argument
parser (the clap `requires` constraints in `refmt-cli/src/main.rs`) before any
processing, for the prefix pair and the suffix pair alike, while
`CaseConverter::new` itself accepts the unpaired option. -/
theorem unpairedReplaceToRejectedAtCli :
    ∀ (t : List Char) (x y : Option (List Char)),
      convertArgsAccepted none (some t) x y = false ∧
      convertArgsAccepted x y none (some t) = false ∧
      (CaseConverterNew CaseFormat.CamelCase CaseFormat.SnakeCase none false false [] []
        none none none (some t) none none none none).isOk = true := by
  intro t x y
  refine ⟨?_, ?_, rfl⟩ <;> simp [convertArgsAccepted]

/-- C9: directory processing is per-file independent: the loop result has one
entry per candidate file, and the i-th entry is exactly `process_file` of the
i-th file — errors on earlier files (reported and swallowed by the loop)
neither abort the loop nor affect later files. -/
theorem processDirIndependent :
    ∀ (job : Job) (files : List FileModel),
      (processDirLoop job files).length = files.length ∧
      ∀ i : Nat, (processDirLoop job files)[i]? = (files[i]?).map (processFile job) := by
  intro job files
  induction files with
  | nil => exact ⟨rfl, fun i => rfl⟩
  | cons f rest ih =>
    refine ⟨by simp [processDirLoop, ih.1], fun i => ?_⟩
    cases i with
    | zero => simp [processDirLoop]
    | succ j =>
      simpa [processDirLoop] using ih.2 j

/-- Every string accepted by `humpsCheck` contains an uppercase letter. -/
theorem humpsCheck_has_upper (cs : List Char) (h : humpsCheck cs = true) :
    ∃ c ∈ cs, c.isUpper = true := by
  unfold humpsCheck at h
  match cs, h with
  | c :: rest, h =>
    exact ⟨c, List.mem_cons_self c rest, (Bool.and_eq_true_iff.mp h).1⟩

/-- A PascalCase token contains at least two uppercase letters. -/
theorem pascalToken_two_upper (mid : List Char) (h : pascalToken mid = true) :
    2 ≤ mid.countP (fun c => c.isUpper) := by
  unfold pascalToken at h
  match mid, h with
  | c :: d :: rest, h =>
    obtain ⟨⟨hc, _⟩, hh⟩ : (c.isUpper = true ∧ isLowerDigit d = true) ∧
        humpsCheck (List.dropWhile isLowerDigit (d :: rest)) = true := by simpa using h
    obtain ⟨e, he, heu⟩ := humpsCheck_has_upper _ hh
    have hmem : e ∈ d :: rest := (List.dropWhile_sublist _).subset he
    have h1 : 0 < (d :: rest).countP (fun c => c.isUpper) :=
      List.countP_pos_iff.mpr ⟨e, hmem, by simpa using heu⟩
    rw [List.countP_cons_of_pos _ _ (by simpa using hc)]
    omega

/-- A single capitalized word contains exactly one uppercase letter. -/
theorem singleCapWord_one_upper (cs : List Char) (h : singleCapWord cs = true) :
    cs.countP (fun c => c.isUpper) = 1 := by
  unfold singleCapWord at h
  match cs, h with
  | c :: rest, h =>
    obtain ⟨hc, hrest⟩ := Bool.and_eq_true_iff.mp h
    rw [List.countP_cons_of_pos _ _ (by simpa using hc)]
    have h0 : rest.countP (fun c => c.isUpper) = 0 := by
      rw [List.countP_eq_zero]
      intro a ha
      have := not_isUpper_of_isLowerDigit a (by
        have := List.all_eq_true.mp hrest a ha
        simpa using this)
      simp [this]
    omega

/-- C8: the PascalCase pattern requires two capitalized humps, so it finds no
match anywhere in a string that is a single capitalized word. -/
theorem pascalNoMatchOnSingleCapWord (T : List Char) (h : singleCapWord T = true) :
    ¬ findsMatch CaseFormat.PascalCase T := by
  rintro ⟨pre, mid, suf, heq, hm, -, -⟩
  have h2 : 2 ≤ mid.countP (fun c => c.isUpper) := pascalToken_two_upper mid hm
  have h1 := singleCapWord_one_upper T h
  rw [heq] at h1
  simp only [List.countP_append] at h1
  omega

/-- C8 witness: the pattern finds no match in `"Hello"`. -/
theorem pascalNoMatchOnSingleCapWord_witness :
    ¬ findsMatch CaseFormat.PascalCase ['H', 'e', 'l', 'l', 'o'] :=
  pascalNoMatchOnSingleCapWord ['H', 'e', 'l', 'l', 'o'] (by decide)

/-- C6: for a candidate file that passes the extension and glob checks and is
read successfully (and whose write, if attempted, succeeds), the reported
outcome is "changed" (`Would convert` / `Converted`) exactly when the
substituted content differs byte-for-byte from the original, and when the
substitution leaves the content identical no write occurs even outside
dry-run mode. -/
theorem changedIffDiffers (job : Job) (f : FileModel) (e content : List Char)
    (hext : f.ext = some e) (hin : ('.' :: e) ∈ job.fileExts)
    (hglob : matchesGlob job f = true) (hread : f.readRes = Except.ok content)
    (hwrite : f.writeRes = Except.ok ()) :
    (((processFile job f).1 = Except.ok Outcome.wouldConvert ∨
      (processFile job f).1 = Except.ok Outcome.converted) ↔
        substitute job content ≠ content) ∧
    (substitute job content = content →
      ∀ m, FsEvent.fileWrite m ∉ (processFile job f).2) := by
  unfold processFile
  rw [hext, hread, hwrite]
  simp only [hin, hglob]
  simp only [not_true_eq_false, if_false, Bool.not_true, Bool.false_eq_true, if_neg]
  constructor
  · constructor
    · intro hout
      split at hout
      · intro heq
        next hne => exact hne heq.symm
      · simp at hout
    · intro hne
      rw [if_pos (Ne.symm hne)]
      split
      · simp
      · simp
  · intro heq m
    rw [if_neg (by simp [heq])]
    simp

/-- C6 witness: the sample camel→snake job over a `.md` file containing
`"myVar"`. -/
theorem changedIffDiffers_witness :
    (((processFile sampleJob mdFile).1 = Except.ok Outcome.wouldConvert ∨
      (processFile sampleJob mdFile).1 = Except.ok Outcome.converted) ↔
        substitute sampleJob ['m', 'y', 'V', 'a', 'r'] ≠ ['m', 'y', 'V', 'a', 'r']) ∧
    (substitute sampleJob ['m', 'y', 'V', 'a', 'r'] = ['m', 'y', 'V', 'a', 'r'] →
      ∀ m, FsEvent.fileWrite m ∉ (processFile sampleJob mdFile).2) :=
  changedIffDiffers sampleJob mdFile ['m', 'd'] ['m', 'y', 'V', 'a', 'r']
    rfl (by decide) rfl rfl rfl

/-! ### Round-trip lemmas: separator-based styles -/

theorem intercalate_cons₂ (s a : List Char) (b : List Char) (t : List (List Char)) :
    List.intercalate s (a :: b :: t) = a ++ s ++ List.intercalate s (b :: t) := by
  simp [List.intercalate, List.intersperse]

theorem splitSepAux_ne_nil (sep : Char) (cs : List Char) :
    ∀ cur, splitSepAux sep cur cs ≠ [] := by
  induction cs with
  | nil => intro cur; simp [splitSepAux]
  | cons c rest ih =>
    intro cur
    unfold splitSepAux
    split
    · simp
    · exact ih (cur ++ [c])

theorem splitSepAux_append_nosep (sep : Char) (w : List Char)
    (hw : ∀ c ∈ w, c ≠ sep) :
    ∀ (cur rest : List Char),
      splitSepAux sep cur (w ++ rest) = splitSepAux sep (cur ++ w) rest := by
  induction w with
  | nil => intro cur rest; simp
  | cons c w' ih =>
    intro cur rest
    have hc : c ≠ sep := hw c (List.mem_cons_self c w')
    simp only [List.cons_append, splitSepAux]
    rw [if_neg hc]
    rw [List.append_eq]
    rw [ih (fun x hx => hw x (List.mem_cons_of_mem c hx)) (cur ++ [c]) rest]
    simp

/-- `split(sep)` undoes `intercalate [sep]`: the full inverse in the other
direction, used for C3. -/
theorem intercalate_splitSepAux (sep : Char) (cs : List Char) :
    ∀ cur, List.intercalate [sep] (splitSepAux sep cur cs) = cur ++ cs := by
  induction cs with
  | nil => intro cur; simp [splitSepAux, List.intercalate]
  | cons c rest ih =>
    intro cur
    unfold splitSepAux
    split
    · next hc =>
      subst hc
      obtain ⟨s0, segs, hseg⟩ :
          ∃ s0 segs, splitSepAux c [] rest = s0 :: segs := by
        cases hx : splitSepAux c [] rest with
        | nil => exact absurd hx (splitSepAux_ne_nil c rest [])
        | cons s0 segs => exact ⟨s0, segs, rfl⟩
      rw [hseg, intercalate_cons₂, ← hseg, ih []]
      simp
    · rw [ih (cur ++ [c])]
      simp

theorem intercalate_splitSepRaw (sep : Char) (cs : List Char) :
    List.intercalate [sep] (splitSepRaw sep cs) = cs := by
  simpa using intercalate_splitSepAux sep cs []

theorem splitSepRaw_intercalate (sep : Char) (W : List (List Char)) (hne : W ≠ [])
    (hw : ∀ w ∈ W, ∀ c ∈ w, c ≠ sep) :
    splitSepRaw sep (List.intercalate [sep] W) = W := by
  induction W with
  | nil => exact absurd rfl hne
  | cons w W' ih =>
    cases W' with
    | nil =>
      have hI : List.intercalate [sep] [w] = w := by
        simp [List.intercalate, List.intersperse]
      rw [hI]
      unfold splitSepRaw
      have h1 := splitSepAux_append_nosep sep w (hw w (by simp)) [] []
      simp only [List.append_nil, List.nil_append] at h1
      rw [h1]
      simp [splitSepAux]
    | cons w' W'' =>
      rw [intercalate_cons₂]
      unfold splitSepRaw
      rw [List.append_assoc]
      rw [splitSepAux_append_nosep sep w (hw w (List.mem_cons_self w _)) []
        ([sep] ++ List.intercalate [sep] (w' :: W''))]
      simp only [List.nil_append, List.singleton_append]
      unfold splitSepAux
      rw [if_pos rfl]
      have := ih (by simp) (fun x hx c hc => hw x (List.mem_cons_of_mem w hx) c hc)
      unfold splitSepRaw at this
      rw [this]

/-! ### Round-trip lemmas: the camel/pascal scan -/

theorem map_toLower_fixed (w : List Char) (h : ∀ c ∈ w, isLowerDigit c = true) :
    w.map Char.toLower = w := by
  induction w with
  | nil => rfl
  | cons c w' ih =>
    simp only [List.map_cons]
    rw [toLower_of_isLowerDigit c (h c (by simp)),
      ih (fun x hx => h x (List.mem_cons_of_mem c hx))]

theorem isLowerDigit_of_isLower (c : Char) (h : c.isLower = true) :
    isLowerDigit c = true := by
  simp [isLowerDigit, h]

theorem toUpper_toLower_of_isUpperDigit (c : Char) (h : isUpperDigit c = true) :
    (c.toLower).toUpper = c := by
  rcases Bool.or_eq_true_iff.mp h with h' | h'
  · exact toUpper_toLower c h'
  · rw [toLower_of_isDigit c h', toUpper_of_isDigit c h']

/-- Scanning from an empty current word always starts by accumulating the
first character, uppercase or not. -/
theorem splitCamelAux_nil_cons (c : Char) (rest : List Char) :
    splitCamelAux [] (c :: rest) = splitCamelAux [c] rest := by
  simp [splitCamelAux]

/-- Characters that are not uppercase are accumulated into the current word. -/
theorem splitCamelAux_append_nonupper (t : List Char)
    (ht : ∀ c ∈ t, c.isUpper = false) :
    ∀ (cur rest : List Char),
      splitCamelAux cur (t ++ rest) = splitCamelAux (cur ++ t) rest := by
  induction t with
  | nil => intro cur rest; simp
  | cons c t' ih =>
    intro cur rest
    have hc : c.isUpper = false := ht c (by simp)
    simp only [List.cons_append, splitCamelAux, hc, Bool.false_and, Bool.false_eq_true,
      if_false]
    rw [List.append_eq]
    rw [ih (fun x hx => ht x (List.mem_cons_of_mem c hx)) (cur ++ [c]) rest]
    simp

/-- An uppercase character with a non-empty current word closes the word. -/
theorem splitCamelAux_boundary (cur : List Char) (u : Char) (rest : List Char)
    (hcur : cur ≠ []) (hu : u.isUpper = true) :
    splitCamelAux cur (u :: rest) = cur.map Char.toLower :: splitCamelAux [u] rest := by
  cases cur with
  | nil => exact absurd rfl hcur
  | cons a as => simp [splitCamelAux, hu]

theorem splitCamelAux_ne_nil (r : List Char) :
    ∀ cur, cur ≠ [] → splitCamelAux cur r ≠ [] := by
  induction r with
  | nil =>
    intro cur hcur
    simp [splitCamelAux, hcur]
  | cons c r' ih =>
    intro cur hcur
    unfold splitCamelAux
    split
    · simp
    · exact ih (cur ++ [c]) (by simp)

/-- Scanning a run of `[A-Z]`/`[a-z0-9]` characters while inside a hump
`u :: t` (uppercase head, lower/digit tail) and re-capitalizing every produced
word restores the text. -/
theorem splitCamelAux_hump_spec (r : List Char)
    (hr : ∀ c ∈ r, c.isUpper = true ∨ isLowerDigit c = true) :
    ∀ (u : Char) (t : List Char), u.isUpper = true →
      (∀ c ∈ t, isLowerDigit c = true) →
      ((splitCamelAux (u :: t) r).map capitalizeWord).flatten = u :: (t ++ r) := by
  induction r with
  | nil =>
    intro u t hu ht
    simp only [splitCamelAux, List.isEmpty_cons, if_false, Bool.false_eq_true,
      List.map_cons, List.map_nil, List.flatten]
    simp only [List.map_cons, capitalizeWord]
    rw [toUpper_toLower u hu, map_toLower_fixed t ht]
    simp
  | cons x r' ih =>
    intro u t hu ht
    rcases hr x (by simp) with hx | hx
    · rw [splitCamelAux_boundary (u :: t) x r' (by simp) hx]
      simp only [List.map_cons, List.flatten_cons, capitalizeWord]
      rw [toUpper_toLower u hu, map_toLower_fixed t ht]
      rw [ih (fun c hc => hr c (List.mem_cons_of_mem x hc)) x [] hx (by simp)]
      simp
    · have hxu : x.isUpper = false := not_isUpper_of_isLowerDigit x hx
      have hstep : splitCamelAux (u :: t) (x :: r') = splitCamelAux (u :: (t ++ [x])) r' := by
        simp only [splitCamelAux, hxu, Bool.false_and, Bool.false_eq_true, if_false]
        simp
      rw [hstep]
      rw [ih (fun c hc => hr c (List.mem_cons_of_mem x hc)) u (t ++ [x]) hu
        (fun c hc => by
          rcases List.mem_append.mp hc with h' | h'
          · exact ht c h'
          · simp at h'
            subst h'
            exact hx)]
      simp

/-- Scanning the concatenation of a list of humps from a non-empty current
word produces the lowercased current word followed by the lowercased humps. -/
theorem splitCamelAux_words_spec (hs : List (List Char))
    (hh : ∀ h ∈ hs, ∃ u t, h = u :: t ∧ u.isUpper = true ∧ ∀ c ∈ t, c.isUpper = false) :
    ∀ cur, cur ≠ [] →
      splitCamelAux cur hs.flatten =
        cur.map Char.toLower :: hs.map (List.map Char.toLower) := by
  induction hs with
  | nil =>
    intro cur hcur
    simp [splitCamelAux, hcur]
  | cons h hs' ih =>
    intro cur hcur
    obtain ⟨u, t, rfl, hu, ht⟩ := hh h (by simp)
    simp only [List.flatten_cons, List.cons_append]
    rw [splitCamelAux_boundary cur u (t ++ hs'.flatten) hcur hu]
    rw [splitCamelAux_append_nonupper t ht [u] hs'.flatten]
    rw [List.singleton_append]
    rw [ih (fun x hx => hh x (List.mem_cons_of_mem _ hx)) (u :: t) (by simp)]
    simp

theorem map_map_toLower_fixed (L : List (List Char))
    (h : ∀ s ∈ L, ∀ c ∈ s, isLowerDigit c = true) :
    L.map (List.map Char.toLower) = L := by
  induction L with
  | nil => rfl
  | cons s L' ih =>
    simp only [List.map_cons]
    rw [map_toLower_fixed s (h s (by simp)),
      ih (fun x hx c hc => h x (List.mem_cons_of_mem s hx) c hc)]

theorem map_toUpper_map_toLower_fixed (s : List Char)
    (h : ∀ c ∈ s, isUpperDigit c = true) :
    (s.map Char.toLower).map Char.toUpper = s := by
  induction s with
  | nil => rfl
  | cons c s' ih =>
    simp only [List.map_cons]
    rw [toUpper_toLower_of_isUpperDigit c (h c (by simp)),
      ih (fun x hx => h x (List.mem_cons_of_mem c hx))]

theorem map_map_upper_fixed (L : List (List Char))
    (h : ∀ s ∈ L, ∀ c ∈ s, isUpperDigit c = true) :
    (L.map (List.map Char.toLower)).map (List.map Char.toUpper) = L := by
  induction L with
  | nil => rfl
  | cons s L' ih =>
    simp only [List.map_cons]
    rw [map_toUpper_map_toLower_fixed s (h s (by simp)),
      ih (fun x hx c hc => h x (List.mem_cons_of_mem s hx) c hc)]

/-- Unpacking of a successful `sepToken` check. -/
theorem sepToken_spec (sep : Char) (fOk rOk : Char → Bool) (T : List Char)
    (h : sepToken sep fOk rOk T = true) :
    ∃ s0 segs, splitSepRaw sep T = s0 :: segs ∧ s0 ≠ [] ∧
      (∀ c ∈ s0, fOk c = true) ∧ segs ≠ [] ∧
      ∀ s ∈ segs, s ≠ [] ∧ ∀ c ∈ s, rOk c = true := by
  unfold sepToken at h
  cases hsplit : splitSepRaw sep T with
  | nil => rw [hsplit] at h; simp at h
  | cons s0 segs =>
    rw [hsplit] at h
    simp only [Bool.and_eq_true, List.all_eq_true, Bool.not_eq_true', List.isEmpty_eq_false,
      Bool.not_eq_false'] at h
    obtain ⟨⟨⟨h0, hf⟩, hsege⟩, hsegs⟩ := h
    exact ⟨s0, segs, rfl, h0, hf, hsege, hsegs⟩

/-- C3 for the two lowercase separator styles (snake and kebab). -/
theorem sep_roundtrip_lower (sep : Char) (T : List Char)
    (h : sepToken sep Char.isLower isLowerDigit T = true) :
    List.intercalate [sep]
      ((((splitSepRaw sep T).filter (fun s => !s.isEmpty)).map
        (List.map Char.toLower)).map (List.map Char.toLower)) = T ∧
    ∃ s0 segs,
      ((splitSepRaw sep T).filter (fun s => !s.isEmpty)).map (List.map Char.toLower) =
        s0 :: segs := by
  obtain ⟨s0, segs, hsplit, h0ne, h0f, hsegne, hsegr⟩ :=
    sepToken_spec sep Char.isLower isLowerDigit T h
  have hall : ∀ s ∈ s0 :: segs, ∀ c ∈ s, isLowerDigit c = true := by
    intro s hs
    rcases List.mem_cons.mp hs with rfl | hs'
    · exact fun c hc => isLowerDigit_of_isLower c (h0f c hc)
    · exact (hsegr s hs').2
  have hfilter : (s0 :: segs).filter (fun s => !s.isEmpty) = s0 :: segs := by
    rw [List.filter_eq_self]
    intro s hs
    rcases List.mem_cons.mp hs with rfl | hs'
    · simpa [List.isEmpty_iff] using h0ne
    · simpa [List.isEmpty_iff] using (hsegr s hs').1
  rw [hsplit, hfilter, map_map_toLower_fixed _ hall, map_map_toLower_fixed _ hall]
  refine ⟨?_, s0, segs, rfl⟩
  rw [← hsplit]
  exact intercalate_splitSepRaw sep T

/-- C3 for the two screaming separator styles. -/
theorem sep_roundtrip_upper (sep : Char) (T : List Char)
    (h : sepToken sep Char.isUpper isUpperDigit T = true) :
    List.intercalate [sep]
      ((((splitSepRaw sep T).filter (fun s => !s.isEmpty)).map
        (List.map Char.toLower)).map (List.map Char.toUpper)) = T ∧
    ∃ s0 segs,
      ((splitSepRaw sep T).filter (fun s => !s.isEmpty)).map (List.map Char.toLower) =
        s0 :: segs := by
  obtain ⟨s0, segs, hsplit, h0ne, h0f, hsegne, hsegr⟩ :=
    sepToken_spec sep Char.isUpper isUpperDigit T h
  have hall : ∀ s ∈ s0 :: segs, ∀ c ∈ s, isUpperDigit c = true := by
    intro s hs
    rcases List.mem_cons.mp hs with rfl | hs'
    · exact fun c hc => by simp [isUpperDigit, h0f c hc]
    · exact (hsegr s hs').2
  have hfilter : (s0 :: segs).filter (fun s => !s.isEmpty) = s0 :: segs := by
    rw [List.filter_eq_self]
    intro s hs
    rcases List.mem_cons.mp hs with rfl | hs'
    · simpa [List.isEmpty_iff] using h0ne
    · simpa [List.isEmpty_iff] using (hsegr s hs').1
  rw [hsplit, hfilter]
  have hmaps : ((s0 :: segs).map (List.map Char.toLower)).map (List.map Char.toUpper) =
      s0 :: segs := map_map_upper_fixed (s0 :: segs) hall
  constructor
  · rw [hmaps, ← hsplit]
    exact intercalate_splitSepRaw sep T
  · exact ⟨s0.map Char.toLower, segs.map (List.map Char.toLower), by simp⟩

/-- C3: for every one of the six case styles and every token `T` accepted by
the style's whole-token recognition pattern, assembling the segmentation of
`T` (with empty prefix and suffix) restores `T` exactly.  This holds for all
accepted tokens, digits included: the digit caveat in the spec's statement is
not needed for full-pattern matches. -/
theorem joinSplit_roundtrip (fmt : CaseFormat) (T : List Char)
    (h : fmt.matchesToken T = true) :
    fmt.joinWords (fmt.splitWords T) [] [] = T := by
  cases fmt with
  | CamelCase =>
    simp only [CaseFormat.matchesToken, camelToken, Bool.and_eq_true] at h
    obtain ⟨hl, hh⟩ := h
    have hlne : T.takeWhile Char.isLower ≠ [] := by
      simpa [List.isEmpty_eq_false] using hl
    cases hr : T.dropWhile Char.isLower with
    | nil => rw [hr] at hh; simp [humpsCheck] at hh
    | cons c r2 =>
      rw [hr] at hh
      simp only [humpsCheck, Bool.and_eq_true, List.all_eq_true] at hh
      obtain ⟨hc, hr2⟩ := hh
      have hT : T.takeWhile Char.isLower ++ (c :: r2) = T := by
        rw [← hr]; exact List.takeWhile_append_dropWhile _ _
      have hlow : ∀ x ∈ T.takeWhile Char.isLower, x.isLower = true := fun x hx =>
        List.mem_takeWhile_imp hx
      have hfix : ∀ x ∈ T.takeWhile Char.isLower, isLowerDigit x = true := fun x hx =>
        isLowerDigit_of_isLower x (hlow x hx)
      have hsplitEq : CaseFormat.splitWords CaseFormat.CamelCase T =
          (T.takeWhile Char.isLower).map Char.toLower :: splitCamelAux [c] r2 := by
        simp only [CaseFormat.splitWords]
        conv_lhs => rw [← hT]
        rw [splitCamelAux_append_nonupper (T.takeWhile Char.isLower)
            (fun x hx => not_isUpper_of_isLower x (hlow x hx)) [] (c :: r2),
          List.nil_append,
          splitCamelAux_boundary _ c r2 hlne hc]
      rw [hsplitEq]
      simp only [CaseFormat.joinWords]
      rw [splitCamelAux_hump_spec r2
        (fun x hx => Bool.or_eq_true_iff.mp (hr2 x hx)) c [] hc (by simp)]
      rw [map_toLower_fixed _ hfix, map_toLower_fixed _ hfix]
      simp only [List.nil_append, List.append_nil]
      exact hT
  | PascalCase =>
    cases T with
    | nil => simp [CaseFormat.matchesToken, pascalToken] at h
    | cons c T' =>
      cases T' with
      | nil => simp [CaseFormat.matchesToken, pascalToken] at h
      | cons d rest =>
        simp only [CaseFormat.matchesToken, pascalToken, Bool.and_eq_true] at h
        obtain ⟨⟨hc, hd⟩, hh⟩ := h
        cases he : (d :: rest).dropWhile isLowerDigit with
        | nil => rw [he] at hh; simp [humpsCheck] at hh
        | cons e r3 =>
          rw [he] at hh
          simp only [humpsCheck, Bool.and_eq_true, List.all_eq_true] at hh
          obtain ⟨heu, hr3⟩ := hh
          have halpha : ∀ x ∈ d :: rest, x.isUpper = true ∨ isLowerDigit x = true := by
            intro x hx
            rw [← List.takeWhile_append_dropWhile isLowerDigit (d :: rest)] at hx
            rcases List.mem_append.mp hx with h' | h'
            · exact Or.inr (List.mem_takeWhile_imp h')
            · rw [he] at h'
              rcases List.mem_cons.mp h' with rfl | h''
              · exact Or.inl heu
              · exact Bool.or_eq_true_iff.mp (hr3 x h'')
          have hsplitEq : CaseFormat.splitWords CaseFormat.PascalCase (c :: d :: rest) =
              splitCamelAux [c] (d :: rest) := by
            simp only [CaseFormat.splitWords]
            exact splitCamelAux_nil_cons c (d :: rest)
          rw [hsplitEq]
          cases hws : splitCamelAux [c] (d :: rest) with
          | nil => exact absurd hws (splitCamelAux_ne_nil (d :: rest) [c] (by simp))
          | cons w0 ws' =>
            simp only [CaseFormat.joinWords]
            rw [← hws]
            rw [splitCamelAux_hump_spec (d :: rest) halpha c [] hc (by simp)]
            simp
  | SnakeCase =>
    obtain ⟨hmain, s0, segs, hcons⟩ := sep_roundtrip_lower '_' T h
    rw [hcons] at hmain
    simp only [CaseFormat.splitWords, CaseFormat.joinWords]
    rw [hcons]
    simpa using hmain
  | ScreamingSnakeCase =>
    obtain ⟨hmain, s0, segs, hcons⟩ := sep_roundtrip_upper '_' T h
    rw [hcons] at hmain
    simp only [CaseFormat.splitWords, CaseFormat.joinWords]
    rw [hcons]
    simpa using hmain
  | KebabCase =>
    obtain ⟨hmain, s0, segs, hcons⟩ := sep_roundtrip_lower '-' T h
    rw [hcons] at hmain
    simp only [CaseFormat.splitWords, CaseFormat.joinWords]
    rw [hcons]
    simpa using hmain
  | ScreamingKebabCase =>
    obtain ⟨hmain, s0, segs, hcons⟩ := sep_roundtrip_upper '-' T h
    rw [hcons] at hmain
    simp only [CaseFormat.splitWords, CaseFormat.joinWords]
    rw [hcons]
    simpa using hmain

/-- C3 witness: the camelCase token `"myVar"` round-trips. -/
theorem joinSplit_roundtrip_witness :
    CaseFormat.CamelCase.joinWords
      (CaseFormat.CamelCase.splitWords ['m', 'y', 'V', 'a', 'r']) [] [] =
      ['m', 'y', 'V', 'a', 'r'] :=
  joinSplit_roundtrip CaseFormat.CamelCase ['m', 'y', 'V', 'a', 'r'] (by decide)

/-! ### C2: split_words as a left inverse of join_words -/

/-- Tests whether a word begins with a lowercase letter. -/
def headIsLower : List Char → Bool
  | [] => false
  | c :: _ => c.isLower

theorem map_toLower_capitalize (w : List Char) (hld : ∀ c ∈ w, isLowerDigit c = true) :
    (capitalizeWord w).map Char.toLower = w := by
  cases w with
  | nil => rfl
  | cons c t =>
    simp only [capitalizeWord, List.map_cons]
    rw [toLower_toUpper_of_isLowerDigit c (hld c (by simp)),
      map_toLower_fixed t (fun x hx => hld x (List.mem_cons_of_mem c hx))]

theorem map_map_capitalize_toLower (L : List (List Char))
    (h : ∀ w ∈ L, ∀ c ∈ w, isLowerDigit c = true) :
    (L.map capitalizeWord).map (List.map Char.toLower) = L := by
  induction L with
  | nil => rfl
  | cons w L' ih =>
    simp only [List.map_cons]
    rw [map_toLower_capitalize w (h w (by simp)),
      ih (fun x hx c hc => h x (List.mem_cons_of_mem w hx) c hc)]

theorem map_toLower_map_toUpper_fixed (w : List Char)
    (h : ∀ c ∈ w, isLowerDigit c = true) :
    (w.map Char.toUpper).map Char.toLower = w := by
  induction w with
  | nil => rfl
  | cons c t ih =>
    simp only [List.map_cons]
    rw [toLower_toUpper_of_isLowerDigit c (h c (by simp)),
      ih (fun x hx => h x (List.mem_cons_of_mem c hx))]

theorem map_map_toUpper_toLower (L : List (List Char))
    (h : ∀ w ∈ L, ∀ c ∈ w, isLowerDigit c = true) :
    ((L.map (List.map Char.toUpper)).map (List.map Char.toLower)) = L := by
  induction L with
  | nil => rfl
  | cons w L' ih =>
    simp only [List.map_cons]
    rw [map_toLower_map_toUpper_fixed w (h w (by simp)),
      ih (fun x hx c hc => h x (List.mem_cons_of_mem w hx) c hc)]

/-- C2 counterexample: over CamelCase the word list `["a", "2b"]` (non-empty
lowercase-alphanumeric words) is NOT recovered: `join_words` produces `"a2b"`
(a digit-led word gains no uppercase boundary), which `split_words` reads back
as the single word `"a2b"`. -/
theorem splitJoin_camel_digit_counterexample :
    CaseFormat.CamelCase.splitWords
      (CaseFormat.CamelCase.joinWords [['a'], ['2', 'b']] [] []) ≠
      [['a'], ['2', 'b']] := by decide

/-- C2 amended: `split_words ∘ join_words` is the identity on non-empty lists
of non-empty lowercase-alphanumeric words for all six styles, provided that —
for CamelCase and PascalCase only — every word after the first begins with a
lowercase letter (a digit-led non-first word is merged into its predecessor,
as the counterexample shows). -/
theorem splitJoin_leftInverse (fmt : CaseFormat) (W : List (List Char))
    (hne : W ≠ [])
    (hw : ∀ w ∈ W, w ≠ [] ∧ ∀ c ∈ w, isLowerDigit c = true)
    (hcp : fmt = CaseFormat.CamelCase ∨ fmt = CaseFormat.PascalCase →
      ∀ w ∈ W.tail, headIsLower w = true) :
    fmt.splitWords (fmt.joinWords W [] []) = W := by
  cases W with
  | nil => exact absurd rfl hne
  | cons w0 rest =>
  have hld : ∀ w ∈ w0 :: rest, ∀ c ∈ w, isLowerDigit c = true := fun w hw' =>
    (hw w hw').2
  have hwne : ∀ w ∈ w0 :: rest, w ≠ [] := fun w hw' => (hw w hw').1
  have hfilterall : ∀ a ∈ w0 :: rest, (!a.isEmpty) = true := fun a ha => by
    simp [List.isEmpty_eq_false, hwne a ha]
  have hhumps : ∀ (L : List (List Char)), (∀ w ∈ L, headIsLower w = true) →
      (∀ w ∈ L, w ≠ [] ∧ ∀ c ∈ w, isLowerDigit c = true) →
      ∀ h ∈ L.map capitalizeWord,
        ∃ u t, h = u :: t ∧ u.isUpper = true ∧ ∀ c ∈ t, c.isUpper = false := by
    intro L hheads hprops h hmem
    obtain ⟨w, hwmem, rfl⟩ := List.mem_map.mp hmem
    obtain ⟨hne', hld'⟩ := hprops w hwmem
    cases w with
    | nil => exact absurd rfl hne'
    | cons c t =>
      refine ⟨c.toUpper, t, by simp [capitalizeWord], ?_, ?_⟩
      · exact isUpper_toUpper c (by simpa [headIsLower] using hheads _ hwmem)
      · exact fun x hx =>
          not_isUpper_of_isLowerDigit x (hld' x (List.mem_cons_of_mem c hx))
  cases fmt with
  | CamelCase =>
    have hheads : ∀ w ∈ rest, headIsLower w = true := hcp (Or.inl rfl)
    simp only [CaseFormat.joinWords, CaseFormat.splitWords, List.nil_append,
      List.append_nil]
    rw [map_toLower_fixed w0 (hld w0 (by simp))]
    rw [splitCamelAux_append_nonupper w0
      (fun x hx => not_isUpper_of_isLowerDigit x (hld w0 (by simp) x hx)) []
      ((rest.map capitalizeWord).flatten), List.nil_append]
    rw [splitCamelAux_words_spec (rest.map capitalizeWord)
      (hhumps rest hheads (fun w hw' => hw w (List.mem_cons_of_mem w0 hw'))) w0
      (hwne w0 (by simp))]
    rw [map_toLower_fixed w0 (hld w0 (by simp))]
    rw [map_map_capitalize_toLower rest
      (fun w hw' c hc => hld w (List.mem_cons_of_mem w0 hw') c hc)]
  | PascalCase =>
    have hheads : ∀ w ∈ rest, headIsLower w = true := hcp (Or.inr rfl)
    simp only [CaseFormat.joinWords, CaseFormat.splitWords, List.nil_append,
      List.append_nil, List.map_cons, List.flatten_cons]
    cases hw0 : w0 with
    | nil => exact absurd hw0 (hwne w0 (by simp))
    | cons c0 t0 =>
      simp only [capitalizeWord, List.cons_append]
      rw [splitCamelAux_nil_cons]
      rw [splitCamelAux_append_nonupper t0
        (fun x hx => not_isUpper_of_isLowerDigit x
          (hld w0 (by simp) x (by rw [hw0]; exact List.mem_cons_of_mem c0 hx))) _
        ((rest.map capitalizeWord).flatten)]
      rw [List.singleton_append]
      rw [splitCamelAux_words_spec (rest.map capitalizeWord)
        (hhumps rest hheads (fun w hw' => hw w (List.mem_cons_of_mem w0 hw')))
        (c0.toUpper :: t0) (by simp)]
      have hcap : (capitalizeWord (c0 :: t0)).map Char.toLower = c0 :: t0 :=
        map_toLower_capitalize (c0 :: t0) (by rw [← hw0]; exact hld w0 (by simp))
      simp only [capitalizeWord] at hcap
      rw [hcap]
      rw [map_map_capitalize_toLower rest
        (fun w hw' c hc => hld w (List.mem_cons_of_mem w0 hw') c hc)]
  | SnakeCase =>
    simp only [CaseFormat.joinWords, CaseFormat.splitWords, List.nil_append,
      List.append_nil]
    rw [map_map_toLower_fixed _ hld]
    rw [splitSepRaw_intercalate '_' (w0 :: rest) (by simp)
      (fun w hw' c hc => ne_of_isLowerDigit '_' (by decide) (hld w hw' c hc))]
    rw [List.filter_eq_self.mpr hfilterall]
    exact map_map_toLower_fixed _ hld
  | ScreamingSnakeCase =>
    simp only [CaseFormat.joinWords, CaseFormat.splitWords, List.nil_append,
      List.append_nil]
    rw [splitSepRaw_intercalate '_' ((w0 :: rest).map (List.map Char.toUpper))
      (by simp)
      (fun w' hw' c hc => by
        obtain ⟨w, hwmem, rfl⟩ := List.mem_map.mp hw'
        obtain ⟨d, hd, rfl⟩ := List.mem_map.mp hc
        exact toUpper_ne_of_isLowerDigit '_' (by decide) (hld w hwmem d hd))]
    rw [List.filter_eq_self.mpr (fun a ha => by
      obtain ⟨w, hwmem, rfl⟩ := List.mem_map.mp ha
      simp [List.isEmpty_eq_false, hwne w hwmem])]
    exact map_map_toUpper_toLower _ hld
  | KebabCase =>
    simp only [CaseFormat.joinWords, CaseFormat.splitWords, List.nil_append,
      List.append_nil]
    rw [map_map_toLower_fixed _ hld]
    rw [splitSepRaw_intercalate '-' (w0 :: rest) (by simp)
      (fun w hw' c hc => ne_of_isLowerDigit '-' (by decide) (hld w hw' c hc))]
    rw [List.filter_eq_self.mpr hfilterall]
    exact map_map_toLower_fixed _ hld
  | ScreamingKebabCase =>
    simp only [CaseFormat.joinWords, CaseFormat.splitWords, List.nil_append,
      List.append_nil]
    rw [splitSepRaw_intercalate '-' ((w0 :: rest).map (List.map Char.toUpper))
      (by simp)
      (fun w' hw' c hc => by
        obtain ⟨w, hwmem, rfl⟩ := List.mem_map.mp hw'
        obtain ⟨d, hd, rfl⟩ := List.mem_map.mp hc
        exact toUpper_ne_of_isLowerDigit '-' (by decide) (hld w hwmem d hd))]
    rw [List.filter_eq_self.mpr (fun a ha => by
      obtain ⟨w, hwmem, rfl⟩ := List.mem_map.mp ha
      simp [List.isEmpty_eq_false, hwne w hwmem])]
    exact map_map_toUpper_toLower _ hld

/-- C2 witness: `["my", "var"]` is recovered across CamelCase. -/
theorem splitJoin_leftInverse_witness :
    CaseFormat.CamelCase.splitWords
      (CaseFormat.CamelCase.joinWords [['m', 'y'], ['v', 'a', 'r']] [] []) =
      [['m', 'y'], ['v', 'a', 'r']] :=
  splitJoin_leftInverse CaseFormat.CamelCase [['m', 'y'], ['v', 'a', 'r']]
    (by decide) (by decide) (fun _ => by decide)

end Refmt
